import Mathlib

/-!
Verification of the scnpm lockfile scanner core.

The Go sources (pkg/types/types.go, pkg/scanner/scanner.go, main.go) are
shallowly embedded below.  Go strings are modelled as Lean `String`s, with
the `strings` standard-library helpers the code uses (`HasPrefix`,
`Contains`, `Split` on a one-character separator, `Count`, `Join`)
re-implemented on the underlying character lists so that everything is
executable and kernel-reducible.  Go maps (`map[string]T`) are modelled as
association lists `List (String × T)`; iteration order of a Go map is
unspecified, the association list fixes one order.  Sequential
`if cond { return true }` chains are rendered as boolean disjunctions.
-/

namespace Scnpm

/-- Go `strings.HasPrefix`-style test on character lists: the first list is
a prefix of the second. -/
def leadsWith : List Char → List Char → Bool
  | [], _ => true
  | _ :: _, [] => false
  | p :: ps, c :: cs => p == c && leadsWith ps cs

/-- Go `strings.Contains s sub` (first argument is the pattern `sub`):
some suffix of the subject starts with the pattern. -/
def hasSubstring (sub : List Char) : List Char → Bool
  | [] => sub.isEmpty
  | c :: rest => leadsWith sub (c :: rest) || hasSubstring sub rest

/-- Go `strings.Split s sep` for a one-character separator, on character
lists.  Always returns at least one (possibly empty) segment. -/
def splitOnChar (sep : Char) : List Char → List (List Char)
  | [] => [[]]
  | c :: rest =>
      match splitOnChar sep rest with
      | [] => [[]]
      | h :: t => if c = sep then [] :: h :: t else (c :: h) :: t

/-- Auxiliary for `goCountSub`: counts non-overlapping occurrences of `pat`
(assumed nonempty), skipping `skip` characters first — after a match the
scan resumes past the matched text, as Go `strings.Count` does. -/
def countSubAux (pat : List Char) : List Char → Nat → Nat
  | [], _ => 0
  | _ :: rest, Nat.succ k => countSubAux pat rest k
  | c :: rest, 0 =>
      if leadsWith pat (c :: rest) then 1 + countSubAux pat rest (pat.length - 1)
      else countSubAux pat rest 0

/-- Go `strings.Contains s sub`. -/
def goContains (s sub : String) : Bool :=
  hasSubstring sub.data s.data

/-- Go `strings.HasPrefix s pre`. -/
def goStartsWith (s pre : String) : Bool :=
  leadsWith pre.data s.data

/-- Go `strings.Split s (string sep)` for a one-character separator. -/
def goSplit (s : String) (sep : Char) : List String :=
  (splitOnChar sep s.data).map String.mk

/-- Go `strings.Count s pat`: number of non-overlapping occurrences of
`pat` in `s`; for an empty pattern, one more than the rune count. -/
def goCountSub (s pat : String) : Nat :=
  if pat.data.isEmpty then s.data.length + 1 else countSubAux pat.data s.data 0

/-- Go `strings.Join elems sep`. -/
def goJoin (elems : List String) (sep : String) : String :=
  match elems with
  | [] => ""
  | [s] => s
  | s :: rest => s ++ sep ++ goJoin rest sep

/-! ## Data model (pkg/types/types.go)

Only the fields the scanner core reads are carried (`peerDependencies` is
kept although never read, to state that it is never consulted); the opaque
passthrough metadata fields (`resolved`, `integrity`, `engines`, …) are
omitted, since no embedded function inspects them. -/

/-- `types.Dependency`: one node of the legacy (lockfileVersion 1) nested
dependency tree. -/
inductive Dependency where
  | mk (version : String) (dev : Bool) (dependencies : List (String × Dependency))

/-- The `Version` field of a legacy dependency node. -/
def Dependency.version : Dependency → String
  | .mk v _ _ => v

/-- The `Dev` field of a legacy dependency node. -/
def Dependency.dev : Dependency → Bool
  | .mk _ d _ => d

/-- The `Dependencies` field of a legacy dependency node. -/
def Dependency.dependencies : Dependency → List (String × Dependency)
  | .mk _ _ ds => ds

/-- `types.Package`: one entry of the flat (lockfileVersion 2+) `packages`
map. -/
structure Package where
  version : String := ""
  dev : Bool := false
  dependencies : List (String × String) := []
  peerDependencies : List (String × String) := []
deriving DecidableEq

/-- `types.PackageLock`: the parsed package-lock.json document. -/
structure PackageLock where
  name : String := ""
  version : String := ""
  lockfileVersion : Int
  dependencies : List (String × Dependency) := []
  packages : List (String × Package) := []

/-- `types.PackageQuery`: a package to search for. -/
structure PackageQuery where
  name : String
  version : String
deriving DecidableEq

/-- `types.PackageInstance`: one occurrence of a package found during the
scan. -/
structure PackageInstance where
  version : String
  path : String
  isDev : Bool
  isNested : Bool
  depth : Int
  lineNumber : Int := 0
  isReference : Bool := false
  referenceType : String := ""
deriving DecidableEq

/-- `types.ScanResult`: the per-query result. -/
structure ScanResult where
  package : PackageQuery
  found : Bool
  instances : List PackageInstance
  totalInstances : Nat
deriving DecidableEq

/-- `scanner.FilterConfig`. -/
structure FilterConfig where
  showDevOnly : Bool
  showNestedOnly : Bool
  minDepth : Int
deriving DecidableEq

/-! ## Name matching (scanner.go) -/

/-- Mirrors the Go test `len(parts) == 2 && parts[1] == other` on the
result of a split. -/
def secondOfPairMatches (parts : List String) (other : String) : Bool :=
  match parts with
  | [_, p1] => p1 == other
  | _ => false

/-- `scanner.MatchesPackageName`: the sequence of early-return checks is
rendered as a disjunction (exact match; scoped package against bare query;
bare package against scoped query; substring containment either way). -/
def MatchesPackageName (packageName queryName : String) : Bool :=
  (packageName == queryName)
  || (goStartsWith packageName "@" && !goStartsWith queryName "@"
      && secondOfPairMatches (goSplit packageName '/') queryName)
  || (!goStartsWith packageName "@" && goStartsWith queryName "@"
      && secondOfPairMatches (goSplit queryName '/') packageName)
  || (goContains packageName queryName || goContains queryName packageName)

/-- The loop body of `scanner.matchesPackageInPath` over the slash-split
parts: at every index holding `"node_modules"` followed by at least one
more part, check the following name (pairing one extra part when it is
scoped and not last) and keep scanning from the next index. -/
def matchesPartsLoop (packageName : String) : List String → Bool
  | "node_modules" :: next :: second :: rest =>
      (if goStartsWith next "@" then
        MatchesPackageName (next ++ "/" ++ second) packageName
      else
        MatchesPackageName next packageName)
      || matchesPartsLoop packageName (next :: second :: rest)
  | ["node_modules", next] => MatchesPackageName next packageName
  | _ :: rest => matchesPartsLoop packageName rest
  | [] => false

/-- `scanner.matchesPackageInPath`. -/
def matchesPackageInPath (path packageName : String) : Bool :=
  matchesPartsLoop packageName (goSplit path '/')

/-! ## Traversal (scanner.go) -/

/-- `scanner.searchDependenciesRecursive` (lockfileVersion 1 descent). -/
def searchDependenciesRecursive :
    List (String × Dependency) → String → String → String → List PackageInstance
  | [], _, _, _ => []
  | (depName, .mk depVersion depDev depChildren) :: rest, packageName, version, basePath =>
      let currentPath :=
        if basePath == "" then "node_modules/" ++ depName
        else basePath ++ "/node_modules/" ++ depName
      (if MatchesPackageName depName packageName && (version == "" || depVersion == version) then
        [{ version := depVersion
           path := currentPath
           lineNumber := 0
           isReference := false
           isDev := depDev
           isNested := goContains currentPath "/node_modules/"
           depth := (goCountSub currentPath "/node_modules/" : Int) }]
      else [])
      ++ searchDependenciesRecursive depChildren packageName version currentPath
      ++ searchDependenciesRecursive rest packageName version basePath

/-- The first loop of `scanner.findPackageInstancesInLock` for
lockfileVersion ≥ 2: one non-reference instance per entry whose path
matches and whose version equals the spec (or the spec is empty). -/
def installPassInstances (packages : List (String × Package)) (packageName version : String) :
    List PackageInstance :=
  packages.flatMap fun pr =>
    if matchesPackageInPath pr.1 packageName
        && (version == "" || pr.2.version == version) then
      [{ version := pr.2.version
         path := pr.1
         lineNumber := 0
         isReference := false
         isDev := pr.2.dev
         isNested := goContains pr.1 "/node_modules/"
         depth := (goCountSub pr.1 "/node_modules/" : Int) }]
    else []

/-- The second loop of `scanner.findPackageInstancesInLock` for
lockfileVersion ≥ 2: one reference instance per declared dependency whose
name matches and whose declared range contains the version spec (or the
spec is empty). -/
def referencePassInstances (packages : List (String × Package)) (packageName version : String) :
    List PackageInstance :=
  packages.flatMap fun pr =>
    pr.2.dependencies.flatMap fun dp =>
      if MatchesPackageName dp.1 packageName
          && (version == "" || goContains dp.2 version) then
        [{ version := dp.2
           path := pr.1 ++ " -> " ++ dp.1
           lineNumber := 0
           isReference := true
           referenceType := "dependencies"
           isDev := pr.2.dev
           isNested := goContains pr.1 "/node_modules/"
           depth := (goCountSub pr.1 "/node_modules/" : Int) + 1 }]
      else []

/-- `scanner.findPackageInstancesInLock`: for lockfileVersion ≥ 2, the
install pass over `packages` followed by the reference pass over each
entry's `dependencies` (the two sequential loops above); otherwise the
legacy recursive descent. -/
def findPackageInstancesInLock (packageLock : PackageLock) (packageName version : String) :
    List PackageInstance :=
  if packageLock.lockfileVersion ≥ 2 then
    installPassInstances packageLock.packages packageName version
      ++ referencePassInstances packageLock.packages packageName version
  else
    searchDependenciesRecursive packageLock.dependencies packageName version ""

/-! ## Filtering and aggregation (scanner.go) -/

/-- `scanner.applyFilters`: the three `continue` guards rendered as one
keep-predicate. -/
def applyFilters (instances : List PackageInstance) (config : FilterConfig) :
    List PackageInstance :=
  instances.filter fun inst =>
    !(config.showDevOnly && !inst.isDev)
    && !(config.showNestedOnly && !inst.isNested)
    && !(decide (inst.depth < config.minDepth))

/-- `scanner.ScanPackages`. -/
def ScanPackages (packageLock : PackageLock) (queries : List PackageQuery)
    (config : FilterConfig) : List ScanResult :=
  queries.map fun query =>
    let instances := findPackageInstancesInLock packageLock query.name query.version
    let filtered := applyFilters instances config
    { package := query
      found := decide (filtered.length > 0)
      instances := filtered
      totalInstances := filtered.length }

/-! ## Query parsing (main.go) -/

/-- `main.parsePackageQuery`: split on `@`; fewer than two parts is an
error; an input with a leading `@` and at least three parts is treated as
a scoped query; otherwise the first part is the name and the rest, re-joined
with `@`, the version. -/
def parsePackageQuery (input : String) : Except String PackageQuery :=
  match goSplit input '@' with
  | p0 :: p1 :: p2 :: rest =>
      if goStartsWith input "@" then
        Except.ok { name := "@" ++ p1, version := goJoin (p2 :: rest) "@" }
      else
        Except.ok { name := p0, version := goJoin (p1 :: p2 :: rest) "@" }
  | [p0, p1] => Except.ok { name := p0, version := p1 }
  | _ => Except.error "invalid format, expected package@version"

/-! ## Specification-side definitions

These follow the wording of the specification (not the code); the theorems
below compare them with the embedded code. -/

/-- The characters strictly after the first occurrence of `sep`, if any. -/
def afterFirstChar (sep : Char) : List Char → Option (List Char)
  | [] => none
  | c :: rest => if c = sep then some rest else afterFirstChar sep rest

/-- Spec §4.1 step 2, for one direction: `scopedName` begins with `@` and
contains a single `/`, `other` does not begin with `@`, and `other` equals
the substring of `scopedName` after the `/`. -/
def scopeStripAccepts (scopedName other : String) : Prop :=
  goStartsWith scopedName "@" = true ∧ goStartsWith other "@" = false ∧
    scopedName.data.count '/' = 1 ∧ afterFirstChar '/' scopedName.data = some other.data

/-- The Name Matcher as worded by the spec: exact equality, or
scope-stripping in either direction, or substring containment in either
direction. -/
def nameMatcherSpec (candidate query : String) : Prop :=
  candidate = query
    ∨ scopeStripAccepts candidate query
    ∨ scopeStripAccepts query candidate
    ∨ hasSubstring query.data candidate.data = true
    ∨ hasSubstring candidate.data query.data = true

/-- The package name announced by each `node_modules` boundary of a
slash-split path, in order: at every part equal to `"node_modules"` that is
followed by at least one more part, the following part (joined with one
more part when it starts with `@` and is not last). -/
def nodeModulesSegmentNames : List String → List String
  | "node_modules" :: next :: second :: rest =>
      (if goStartsWith next "@" then next ++ "/" ++ second else next)
        :: nodeModulesSegmentNames (next :: second :: rest)
  | ["node_modules", next] => [next]
  | _ :: rest => nodeModulesSegmentNames rest
  | [] => []

/-- The terminal package name of a slash-split path per the spec's wording:
the name at the last `node_modules` boundary. -/
def terminalPackageName (parts : List String) : Option String :=
  (nodeModulesSegmentNames parts).getLast?

/-- Spec §4.3: the keep-condition of the Filter Stage as worded by the
spec. -/
def filterKeepSpec (config : FilterConfig) (inst : PackageInstance) : Prop :=
  (config.showDevOnly = false ∨ inst.isDev = true)
    ∧ (config.showNestedOnly = false ∨ inst.isNested = true)
    ∧ config.minDepth ≤ inst.depth

/-- The default filter configuration (no dev-only, no nested-only, minimum
depth zero). -/
def defaultFilterConfig : FilterConfig :=
  { showDevOnly := false, showNestedOnly := false, minDepth := 0 }

/-- The same lockfile with every entry's `peerDependencies` map emptied;
used to state that the scanner never consults that map. -/
def erasePeerDependencies (lock : PackageLock) : PackageLock :=
  { lock with packages := lock.packages.map fun pr => (pr.1, { pr.2 with peerDependencies := [] }) }

/-! ## Concrete inputs used by the closed theorems and witnesses -/

/-- A schema-2 lockfile whose only entry sits below an intermediate
`node_modules/react` segment while its terminal package is `left-pad`. -/
def lockInterSeg : PackageLock :=
  { lockfileVersion := 2
    packages := [("node_modules/react/node_modules/left-pad", { version := "1.0.0" })] }

/-- A schema-2 lockfile with one nested entry that also declares one
dependency, for the depth computations. -/
def lockDepth : PackageLock :=
  { lockfileVersion := 2
    packages := [("node_modules/a/node_modules/b",
      { version := "1.0.0", dependencies := [("b", "^1.0.0")] })] }

/-- The legacy (schema-1) lockfile of end-to-end scenario 4:
`debug@4.3.4` with nested `ms@2.0.0`. -/
def lockLegacy : PackageLock :=
  { lockfileVersion := 1
    dependencies := [("debug", .mk "4.3.4" false [("ms", .mk "2.0.0" false [])])] }

/-- A legacy lockfile in which a matching node has a matching nested child,
to exhibit that a match does not prune its subtree. -/
def lockLegacyNoPrune : PackageLock :=
  { lockfileVersion := 1
    dependencies := [("ms", .mk "1.0.0" false [("ms", .mk "2.0.0" false [])])] }

/-- A small schema-2 lockfile for the aggregate-result witnesses. -/
def lockSmall : PackageLock :=
  { lockfileVersion := 2
    packages := [("node_modules/react", { version := "18.2.0" })] }

/-- The install instance the scan of `lockDepth` finds for query name
`"b"`. -/
def sampleInstall : PackageInstance :=
  { version := "1.0.0", path := "node_modules/a/node_modules/b",
    isDev := false, isNested := true, depth := 1 }

/-- The reference instance the scan of `lockDepth` finds for query name
`"b"`. -/
def sampleRef : PackageInstance :=
  { version := "^1.0.0", path := "node_modules/a/node_modules/b -> b",
    isDev := false, isNested := true, depth := 2,
    isReference := true, referenceType := "dependencies" }

/-- The result the aggregator produces for `lockSmall` and the query
`react@18.2.0` under the default filter configuration. -/
def sampleResult : ScanResult :=
  { package := { name := "react", version := "18.2.0" }
    found := true
    instances := [{ version := "18.2.0", path := "node_modules/react",
                    isDev := false, isNested := false, depth := 0 }]
    totalInstances := 1 }

/-! ## String helper lemmas -/

/-- The empty pattern occurs in every subject. -/
theorem hasSubstring_nil (l : List Char) : hasSubstring [] l = true := by
  cases l <;> simp [hasSubstring, leadsWith]

/-- `goContains s ""` is always true. -/
theorem goContains_empty_pattern (s : String) : goContains s "" = true :=
  hasSubstring_nil s.data

/-- `splitOnChar` never returns the empty list. -/
theorem splitOnChar_ne_nil (sep : Char) (l : List Char) : splitOnChar sep l ≠ [] := by
  cases l with
  | nil => simp [splitOnChar]
  | cons c rest =>
      rcases hrec : splitOnChar sep rest with _ | ⟨h, t⟩
      · simp [splitOnChar, hrec]
      · simp only [splitOnChar, hrec]
        split <;> simp

/-- The number of segments is the separator count plus one. -/
theorem splitOnChar_length (sep : Char) (l : List Char) :
    (splitOnChar sep l).length = l.count sep + 1 := by
  induction l with
  | nil => simp [splitOnChar]
  | cons c rest ih =>
      rcases hrec : splitOnChar sep rest with _ | ⟨h, t⟩
      · exact absurd hrec (splitOnChar_ne_nil sep rest)
      · rw [hrec] at ih
        by_cases hc : c = sep
        · simp [splitOnChar, hrec, hc, List.count_cons] at ih ⊢
          omega
        · simp [splitOnChar, hrec, hc, List.count_cons, Ne.symm hc] at ih ⊢
          omega

/-- A one-segment split means the separator does not occur. -/
theorem splitOnChar_eq_single_iff (sep : Char) (l y : List Char) :
    splitOnChar sep l = [y] ↔ l.count sep = 0 ∧ y = l := by
  induction l generalizing y with
  | nil => simp [splitOnChar]
  | cons c rest ih =>
      rcases hrec : splitOnChar sep rest with _ | ⟨h, t⟩
      · exact absurd hrec (splitOnChar_ne_nil sep rest)
      · by_cases hc : c = sep
        · simp [splitOnChar, hrec, hc, List.count_cons]
        · have hlen := splitOnChar_length sep rest
          rw [hrec] at hlen
          rcases t with _ | ⟨t0, ts⟩
          · obtain ⟨hcount, hh⟩ := (ih h).mp hrec
            subst hh
            simp [splitOnChar, hrec, hc, List.count_cons, hcount, Ne.symm hc]
            exact eq_comm
          · simp only [List.length_cons, List.count_cons] at hlen
            simp [splitOnChar, hrec, hc, List.count_cons, Ne.symm hc]
            intro hcnt
            omega

/-- Separator head: the split gains a leading empty segment. -/
theorem splitOnChar_cons_sep (sep : Char) (rest : List Char) :
    splitOnChar sep (sep :: rest) = [] :: splitOnChar sep rest := by
  rcases hrec : splitOnChar sep rest with _ | ⟨h, t⟩
  · exact absurd hrec (splitOnChar_ne_nil sep rest)
  · simp [splitOnChar, hrec]

/-- Non-separator head: the character joins the first segment. -/
theorem splitOnChar_cons_ne (sep c : Char) (rest : List Char) (hc : c ≠ sep)
    (h : List Char) (t : List (List Char)) (hrec : splitOnChar sep rest = h :: t) :
    splitOnChar sep (c :: rest) = (c :: h) :: t := by
  simp [splitOnChar, hrec, hc]

/-- A two-segment split means the separator occurs exactly once, and the
second segment is the text after it. -/
theorem splitOnChar_pair_iff (sep : Char) (l b : List Char) :
    (∃ x, splitOnChar sep l = [x, b]) ↔
      l.count sep = 1 ∧ afterFirstChar sep l = some b := by
  induction l with
  | nil => simp [splitOnChar, afterFirstChar]
  | cons c rest ih =>
      by_cases hc : c = sep
      · subst hc
        rw [splitOnChar_cons_sep]
        constructor
        · rintro ⟨x, hx⟩
          injection hx with e1 e2
          obtain ⟨h1, h2⟩ := (splitOnChar_eq_single_iff c rest b).mp e2
          subst h2
          simp [List.count_cons, afterFirstChar, h1]
        · rintro ⟨hcnt, hafter⟩
          simp [List.count_cons] at hcnt
          simp [afterFirstChar] at hafter
          refine ⟨[], ?_⟩
          rw [(splitOnChar_eq_single_iff c rest b).mpr ⟨hcnt, hafter.symm⟩]
      · rcases hrec : splitOnChar sep rest with _ | ⟨h, t⟩
        · exact absurd hrec (splitOnChar_ne_nil sep rest)
        · rw [splitOnChar_cons_ne sep c rest hc h t hrec]
          constructor
          · rintro ⟨x, hx⟩
            injection hx with e1 e2
            obtain ⟨hcnt, hafter⟩ := ih.mp ⟨h, by rw [hrec, e2]⟩
            simp [List.count_cons, afterFirstChar, hc, Ne.symm hc, hcnt, hafter]
          · rintro ⟨hcnt, hafter⟩
            simp [List.count_cons, Ne.symm hc] at hcnt
            simp [afterFirstChar, hc] at hafter
            obtain ⟨x, hx⟩ := ih.mpr ⟨hcnt, hafter⟩
            rw [hrec] at hx
            injection hx with f1 f2
            exact ⟨c :: x, by rw [f1, f2]⟩

/-- The Go test `len(parts) == 2 && parts[1] == other` on a slash split,
characterised by separator count and the text after the slash. -/
theorem secondOfPairMatches_iff (a b : String) :
    secondOfPairMatches (goSplit a '/') b = true ↔
      a.data.count '/' = 1 ∧ afterFirstChar '/' a.data = some b.data := by
  rw [← splitOnChar_pair_iff]
  unfold goSplit secondOfPairMatches
  rcases hL : splitOnChar '/' a.data with _ | ⟨x, _ | ⟨y, _ | ⟨z, t⟩⟩⟩
  · exact absurd hL (splitOnChar_ne_nil '/' a.data)
  · simp
  · simp only [List.map_cons, List.map_nil, beq_iff_eq]
    constructor
    · rintro rfl
      exact ⟨x, by simp⟩
    · rintro ⟨w, hw⟩
      injection hw with e1 e2
      injection e2 with e3 e4
      rw [e3]
  · simp

/-- The code's Name Matcher agrees with the spec's wording. -/
theorem nameMatcher_eq_spec (c q : String) :
    MatchesPackageName c q = true ↔ nameMatcherSpec c q := by
  unfold MatchesPackageName nameMatcherSpec scopeStripAccepts goContains
  simp only [Bool.or_eq_true, Bool.and_eq_true, beq_iff_eq, Bool.not_eq_true']
  rw [secondOfPairMatches_iff, secondOfPairMatches_iff]
  tauto

/-- The Name Matcher accepts any candidate against the empty query name. -/
theorem matches_empty_query (n : String) : MatchesPackageName n "" = true := by
  unfold MatchesPackageName
  simp [goContains_empty_pattern]

/-- The Name Matcher accepts the empty candidate against any query name. -/
theorem matches_empty_candidate (n : String) : MatchesPackageName "" n = true := by
  unfold MatchesPackageName
  simp [goContains_empty_pattern]

/-- C4: the Name Matcher returns true exactly per the spec's three rules
(string equality; one-sided scope stripping; bidirectional substring
containment); hence it is reflexive, the substring fallback is symmetric,
and unrelated names are rejected. -/
theorem claimC4 :
    (∀ c q, MatchesPackageName c q = true ↔ nameMatcherSpec c q)
      ∧ (∀ c, MatchesPackageName c c = true)
      ∧ MatchesPackageName "react-dom" "react" = true
      ∧ MatchesPackageName "react" "react-dom" = true
      ∧ MatchesPackageName "vue" "react" = false := by
  refine ⟨nameMatcher_eq_spec, fun c => ?_, by decide, by decide, by decide⟩
  simp [MatchesPackageName]

/-- Membership in a flatMap of guarded singletons. -/
theorem mem_flatMap_ite {α β : Type} (l : List α) (C : α → Bool) (g : α → β) (x : β) :
    x ∈ l.flatMap (fun a => if C a then [g a] else []) ↔ ∃ a ∈ l, C a = true ∧ x = g a := by
  rw [List.mem_flatMap]
  constructor
  · rintro ⟨a, ha, hx⟩
    by_cases hc : C a
    · simp [hc] at hx
      exact ⟨a, ha, hc, hx⟩
    · simp [hc] at hx
  · rintro ⟨a, ha, hc, rfl⟩
    exact ⟨a, ha, by simp [hc]⟩

/-- flatMap over a mapped list. -/
theorem flatMap_over_map {α β γ : Type} (l : List α) (f : α → β) (g : β → List γ) :
    (l.map f).flatMap g = l.flatMap (fun a => g (f a)) := by
  induction l <;> simp [*]

/-- Every instance produced by the legacy descent is a non-reference
instance whose bookkeeping fields are derived from its own path. -/
theorem searchDeps_fields (deps : List (String × Dependency)) (pn v bp : String)
    (inst : PackageInstance) (h : inst ∈ searchDependenciesRecursive deps pn v bp) :
    inst.isReference = false ∧ inst.referenceType = "" ∧ inst.lineNumber = 0 ∧
      inst.isNested = goContains inst.path "/node_modules/" ∧
      inst.depth = (goCountSub inst.path "/node_modules/" : Int) := by
  induction deps, pn, v, bp using searchDependenciesRecursive.induct with
  | case1 => simp [searchDependenciesRecursive] at h
  | case2 depName depVersion depDev depChildren rest packageName version basePath currentPath ih1 ih2 =>
      simp only [searchDependenciesRecursive] at h
      rcases List.mem_append.mp h with h1 | h2
      · rcases List.mem_append.mp h1 with ha | hb
        · split at ha
          · rcases List.mem_singleton.mp ha with rfl
            refine ⟨rfl, rfl, rfl, rfl, rfl⟩
          · simp at ha
        · exact ih1 hb
      · exact ih2 h2

/-- C10: every produced reference instance has referenceKind
`"dependencies"` (and non-references have an empty kind), and the scan is
insensitive to every entry's `peerDependencies` map. -/
theorem claimC10 :
    (∀ (lock : PackageLock) (q v : String) (inst : PackageInstance),
        inst ∈ findPackageInstancesInLock lock q v →
        inst.referenceType = if inst.isReference then "dependencies" else "")
      ∧ (∀ (lock : PackageLock) (q v : String),
        findPackageInstancesInLock (erasePeerDependencies lock) q v
          = findPackageInstancesInLock lock q v) := by
  constructor
  · intro lock q v inst h
    unfold findPackageInstancesInLock installPassInstances referencePassInstances at h
    split at h
    · rcases List.mem_append.mp h with h1 | h1
      · rcases List.mem_flatMap.mp h1 with ⟨pr, hpr, hx⟩
        split at hx
        · rcases List.mem_singleton.mp hx with rfl
          rfl
        · simp at hx
      · rcases List.mem_flatMap.mp h1 with ⟨pr, hpr, hx⟩
        rcases List.mem_flatMap.mp hx with ⟨dp, hdp, hy⟩
        split at hy
        · rcases List.mem_singleton.mp hy with rfl
          rfl
        · simp at hy
    · obtain ⟨href, htype, -⟩ := searchDeps_fields _ _ _ _ _ h
      simp [htype, href]
  · intro lock q v
    unfold findPackageInstancesInLock installPassInstances referencePassInstances
      erasePeerDependencies
    simp only [flatMap_over_map]

/-- The keep-predicate used by `applyFilters`, characterised by the spec's
keep-condition. -/
theorem applyFilters_pred_iff (cfg : FilterConfig) (i : PackageInstance) :
    (!(cfg.showDevOnly && !i.isDev) && !(cfg.showNestedOnly && !i.isNested)
        && !(decide (i.depth < cfg.minDepth))) = true ↔ filterKeepSpec cfg i := by
  unfold filterKeepSpec
  cases cfg.showDevOnly <;> cases cfg.showNestedOnly <;> cases i.isDev <;> cases i.isNested <;>
    simp [Int.not_lt]

/-- C2: every ScanResult of ScanPackages satisfies
wasFound = (totalInstanceCount > 0) and totalInstanceCount = length of the
filtered instance list. -/
theorem claimC2 (lock : PackageLock) (queries : List PackageQuery) (cfg : FilterConfig)
    (r : ScanResult) (hr : r ∈ ScanPackages lock queries cfg) :
    (r.found = true ↔ 0 < r.totalInstances) ∧ r.totalInstances = r.instances.length := by
  unfold ScanPackages at hr
  obtain ⟨q, hq, rfl⟩ := List.mem_map.mp hr
  simp

/-- C7: the Filter Stage is an order-preserving subsequence selection whose
keep-condition is the spec's; the default configuration keeps every
instance (of nonnegative depth, as produced); filtering is idempotent. -/
theorem claimC7 :
    (∀ (l : List PackageInstance) (cfg : FilterConfig), (applyFilters l cfg).Sublist l)
      ∧ (∀ (l : List PackageInstance) (cfg : FilterConfig) (i : PackageInstance),
          i ∈ applyFilters l cfg ↔ i ∈ l ∧ filterKeepSpec cfg i)
      ∧ (∀ l : List PackageInstance, (∀ i ∈ l, 0 ≤ i.depth) →
          applyFilters l defaultFilterConfig = l)
      ∧ (∀ (l : List PackageInstance) (cfg : FilterConfig),
          applyFilters (applyFilters l cfg) cfg = applyFilters l cfg) := by
  refine ⟨?_, ?_, ?_, ?_⟩
  · intro l cfg
    exact List.filter_sublist l
  · intro l cfg i
    unfold applyFilters
    rw [List.mem_filter, applyFilters_pred_iff]
  · intro l hl
    unfold applyFilters
    rw [List.filter_eq_self]
    intro i hi
    exact (applyFilters_pred_iff defaultFilterConfig i).mpr
      ⟨Or.inl rfl, Or.inl rfl, hl i hi⟩
  · intro l cfg
    unfold applyFilters
    rw [List.filter_filter]
    simp [Bool.and_self]

/-- Filtering a guarded-singleton flatMap by a predicate that evaluates the
guard's second conjunct. -/
theorem flatMap_guard_filter {α : Type} (l : List α) (m c : α → Bool)
    (g : α → PackageInstance) (p : PackageInstance → Bool) (hp : ∀ a, p (g a) = c a) :
    l.flatMap (fun a => if m a && c a then [g a] else [])
      = (l.flatMap (fun a => if m a then [g a] else [])).filter p := by
  induction l with
  | nil => rfl
  | cons a rest ih =>
      simp only [List.flatMap_cons, List.filter_append, ih]
      congr 1
      cases hm : m a
      · simp
      · simp only [Bool.true_and]
        cases hc : c a <;> simp [List.filter_cons, hp a, hc]

/-- Every install-pass instance is a non-reference. -/
theorem installPass_isRef (pkgs : List (String × Package)) (pn v : String) :
    ∀ inst ∈ installPassInstances pkgs pn v, inst.isReference = false := by
  intro inst h
  rcases List.mem_flatMap.mp h with ⟨pr, hpr, hx⟩
  split at hx
  · rcases List.mem_singleton.mp hx with rfl
    rfl
  · simp at hx

/-- Every reference-pass instance is a reference. -/
theorem refPass_isRef (pkgs : List (String × Package)) (pn v : String) :
    ∀ inst ∈ referencePassInstances pkgs pn v, inst.isReference = true := by
  intro inst h
  rcases List.mem_flatMap.mp h with ⟨pr, hpr, hx⟩
  rcases List.mem_flatMap.mp hx with ⟨dp, hdp, hy⟩
  split at hy
  · rcases List.mem_singleton.mp hy with rfl
    rfl
  · simp at hy

/-- The install pass for a version spec is the unconstrained install pass
filtered by exact version equality. -/
theorem installPass_version_filter (pkgs : List (String × Package)) (q v : String) :
    installPassInstances pkgs q v
      = (installPassInstances pkgs q "").filter (fun i => v == "" || i.version == v) := by
  have hempty : installPassInstances pkgs q ""
      = pkgs.flatMap fun pr =>
          if matchesPackageInPath pr.1 q then
            [{ version := pr.2.version
               path := pr.1
               lineNumber := 0
               isReference := false
               isDev := pr.2.dev
               isNested := goContains pr.1 "/node_modules/"
               depth := (goCountSub pr.1 "/node_modules/" : Int) }]
          else [] := by
    unfold installPassInstances
    simp
  rw [hempty]
  unfold installPassInstances
  exact flatMap_guard_filter pkgs _ _ _ _ (fun a => rfl)

/-- The reference pass for a version spec is the unconstrained reference
pass filtered by substring containment in the declared range. -/
theorem refPass_version_filter (pkgs : List (String × Package)) (q v : String) :
    referencePassInstances pkgs q v
      = (referencePassInstances pkgs q "").filter
          (fun i => v == "" || goContains i.version v) := by
  induction pkgs with
  | nil => rfl
  | cons pr rest ih =>
      unfold referencePassInstances at ih ⊢
      simp only [List.flatMap_cons, List.filter_append]
      congr 1
      · conv_rhs => rw [show (("" : String) == "") = true from rfl]
        simp only [Bool.true_or, Bool.and_true]
        exact flatMap_guard_filter _ _ _ _ _ (fun dp => rfl)

/-- Filtering the install pass to non-references keeps everything. -/
theorem installPass_filter_nonref (pkgs : List (String × Package)) (pn v : String) :
    (installPassInstances pkgs pn v).filter (fun i => !i.isReference)
      = installPassInstances pkgs pn v := by
  rw [List.filter_eq_self]
  intro a ha
  simp [installPass_isRef pkgs pn v a ha]

/-- Filtering the install pass to references drops everything. -/
theorem installPass_filter_ref (pkgs : List (String × Package)) (pn v : String) :
    (installPassInstances pkgs pn v).filter (fun i => i.isReference) = [] := by
  rw [List.filter_eq_nil_iff]
  intro a ha
  simp [installPass_isRef pkgs pn v a ha]

/-- Filtering the reference pass to non-references drops everything. -/
theorem refPass_filter_nonref (pkgs : List (String × Package)) (pn v : String) :
    (referencePassInstances pkgs pn v).filter (fun i => !i.isReference) = [] := by
  rw [List.filter_eq_nil_iff]
  intro a ha
  simp [refPass_isRef pkgs pn v a ha]

/-- Filtering the reference pass to references keeps everything. -/
theorem refPass_filter_ref (pkgs : List (String × Package)) (pn v : String) :
    (referencePassInstances pkgs pn v).filter (fun i => i.isReference)
      = referencePassInstances pkgs pn v := by
  rw [List.filter_eq_self]
  intro a ha
  simp [refPass_isRef pkgs pn v a ha]

/-- For a modern lockfile the scan is the install pass followed by the
reference pass. -/
theorem find_split (lock : PackageLock) (q v : String) (h2 : lock.lockfileVersion ≥ 2) :
    findPackageInstancesInLock lock q v
      = installPassInstances lock.packages q v ++ referencePassInstances lock.packages q v := by
  unfold findPackageInstancesInLock
  rw [if_pos h2]

/-- C3: for schema ≥ 2, an empty version spec matches regardless of
version; a non-empty spec filters install instances by exact equality and
reference instances by substring containment in the declared range; both
passes run and their results are concatenated (installs first). -/
theorem claimC3 (lock : PackageLock) (q v : String) (h2 : lock.lockfileVersion ≥ 2) :
    ((findPackageInstancesInLock lock q v).filter (fun i => !i.isReference)
        = ((findPackageInstancesInLock lock q "").filter (fun i => !i.isReference)).filter
            (fun i => v == "" || i.version == v))
      ∧ ((findPackageInstancesInLock lock q v).filter (fun i => i.isReference)
        = ((findPackageInstancesInLock lock q "").filter (fun i => i.isReference)).filter
            (fun i => v == "" || goContains i.version v))
      ∧ findPackageInstancesInLock lock q v
        = (findPackageInstancesInLock lock q v).filter (fun i => !i.isReference)
          ++ (findPackageInstancesInLock lock q v).filter (fun i => i.isReference) := by
  have hv := find_split lock q v h2
  have h0 := find_split lock q "" h2
  refine ⟨?_, ?_, ?_⟩
  · rw [hv, h0, List.filter_append, List.filter_append,
      installPass_filter_nonref, installPass_filter_nonref,
      refPass_filter_nonref, refPass_filter_nonref,
      List.append_nil, List.append_nil]
    exact installPass_version_filter lock.packages q v
  · rw [hv, h0, List.filter_append, List.filter_append,
      installPass_filter_ref, installPass_filter_ref,
      refPass_filter_ref, refPass_filter_ref,
      List.nil_append, List.nil_append]
    exact refPass_version_filter lock.packages q v
  · rw [hv, List.filter_append, List.filter_append,
      installPass_filter_nonref, refPass_filter_nonref,
      installPass_filter_ref, refPass_filter_ref,
      List.append_nil, List.nil_append]

/-- Length of a guarded-singleton flatMap whose guard always holds. -/
theorem guard_flatMap_length {α : Type} (l : List α) (C : α → Bool) (g : α → PackageInstance)
    (hC : ∀ a, C a = true) :
    (l.flatMap fun a => if C a then [g a] else []).length = l.length := by
  induction l with
  | nil => rfl
  | cons a rest ih => simp [List.flatMap_cons, hC a, ih]

/-- With empty query name and empty version spec, the reference pass emits
one instance per declared dependency. -/
theorem refPass_empty_length (pkgs : List (String × Package)) :
    (referencePassInstances pkgs "" "").length
      = (pkgs.map (fun pr => pr.2.dependencies.length)).sum := by
  induction pkgs with
  | nil => rfl
  | cons pr rest ih =>
      unfold referencePassInstances at ih ⊢
      simp only [List.flatMap_cons, List.length_append, List.map_cons, List.sum_cons, ih]
      congr 1
      exact guard_flatMap_length _ _ _ (fun dp => by simp [matches_empty_query])

/-- With empty query name and empty version spec, the install pass emits
one instance per path-matched entry. -/
theorem installPass_empty_length (pkgs : List (String × Package)) :
    (installPassInstances pkgs "" "").length
      = (pkgs.filter (fun pr => matchesPackageInPath pr.1 "")).length := by
  induction pkgs with
  | nil => rfl
  | cons pr rest ih =>
      unfold installPassInstances at ih ⊢
      rw [List.flatMap_cons, List.length_append, ih, List.filter_cons]
      cases hm : matchesPackageInPath pr.1 ""
      · simp [hm]
      · simp [hm, Nat.add_comm]

/-- C9: the Name Matcher accepts the empty name in either position, so the
empty query (empty name, empty version spec) produces one reference
instance per declared dependency and one install instance per path-matched
entry. -/
theorem claimC9 :
    (∀ n, MatchesPackageName n "" = true)
      ∧ (∀ n, MatchesPackageName "" n = true)
      ∧ (∀ lock : PackageLock, lock.lockfileVersion ≥ 2 →
          ((findPackageInstancesInLock lock "" "").filter (fun i => i.isReference)).length
            = (lock.packages.map (fun pr => pr.2.dependencies.length)).sum)
      ∧ (∀ lock : PackageLock, lock.lockfileVersion ≥ 2 →
          ((findPackageInstancesInLock lock "" "").filter (fun i => !i.isReference)).length
            = (lock.packages.filter (fun pr => matchesPackageInPath pr.1 "")).length) := by
  refine ⟨matches_empty_query, matches_empty_candidate, ?_, ?_⟩
  · intro lock h2
    rw [find_split lock "" "" h2, List.filter_append,
      installPass_filter_ref, refPass_filter_ref, List.nil_append]
    exact refPass_empty_length lock.packages
  · intro lock h2
    rw [find_split lock "" "" h2, List.filter_append,
      installPass_filter_nonref, refPass_filter_nonref, List.append_nil]
    exact installPass_empty_length lock.packages

/-- C5: a non-reference instance's depth is the count of `/node_modules/`
in its own path; a reference instance's depth is its owning entry's depth
plus one; concretely the nested example yields depths 1 and 2, while the
plain count of `node_modules/` in that install path is 2. -/
theorem claimC5 :
    (∀ (lock : PackageLock) (q v : String) (inst : PackageInstance),
        inst ∈ findPackageInstancesInLock lock q v → inst.isReference = false →
        inst.depth = (goCountSub inst.path "/node_modules/" : Int))
      ∧ (∀ (lock : PackageLock) (q v : String) (inst : PackageInstance),
        inst ∈ findPackageInstancesInLock lock q v → inst.isReference = true →
        ∃ pr ∈ lock.packages, ∃ dp ∈ pr.2.dependencies,
          inst.path = pr.1 ++ " -> " ++ dp.1
            ∧ inst.depth = (goCountSub pr.1 "/node_modules/" : Int) + 1)
      ∧ findPackageInstancesInLock lockDepth "b" "" = [sampleInstall, sampleRef]
      ∧ goCountSub "node_modules/a/node_modules/b" "node_modules/" = 2 := by
  refine ⟨?_, ?_, by decide, by decide⟩
  · intro lock q v inst h href
    unfold findPackageInstancesInLock at h
    split at h
    · rcases List.mem_append.mp h with h1 | h1
      · unfold installPassInstances at h1
        rcases List.mem_flatMap.mp h1 with ⟨pr, hpr, hx⟩
        split at hx
        · rcases List.mem_singleton.mp hx with rfl
          rfl
        · simp at hx
      · rw [refPass_isRef _ _ _ inst h1] at href
        exact absurd href (by simp)
    · exact (searchDeps_fields _ _ _ _ _ h).2.2.2.2
  · intro lock q v inst h href
    unfold findPackageInstancesInLock at h
    split at h
    · rcases List.mem_append.mp h with h1 | h1
      · rw [installPass_isRef _ _ _ inst h1] at href
        exact absurd href (by simp)
      · unfold referencePassInstances at h1
        rcases List.mem_flatMap.mp h1 with ⟨pr, hpr, hx⟩
        rcases List.mem_flatMap.mp hx with ⟨dp, hdp, hy⟩
        split at hy
        · rcases List.mem_singleton.mp hy with rfl
          exact ⟨pr, hpr, dp, hdp, rfl, rfl⟩
        · simp at hy
    · rw [(searchDeps_fields _ _ _ _ _ h).1] at href
      exact absurd href (by simp)

/-- In an association list with distinct keys, a key determines its
value. -/
theorem keyUnique {β : Type} (l : List (String × β)) (h : (l.map Prod.fst).Nodup)
    {a : String} {b b' : β} (h1 : (a, b) ∈ l) (h2 : (a, b') ∈ l) : b = b' := by
  induction l with
  | nil => simp at h1
  | cons pr rest ih =>
      simp only [List.map_cons, List.nodup_cons] at h
      rcases List.mem_cons.mp h1 with e1 | m1
      · rcases List.mem_cons.mp h2 with e2 | m2
        · injection e2.trans e1.symm with ha hb
          exact hb.symm
        · exfalso
          exact h.1 (by rw [← e1]; exact List.mem_map.mpr ⟨(a, b'), m2, rfl⟩)
      · rcases List.mem_cons.mp h2 with e2 | m2
        · exfalso
          exact h.1 (by rw [← e2]; exact List.mem_map.mpr ⟨(a, b), m1, rfl⟩)
        · exact ih h.2 m1 m2

/-- The path-matching loop accepts exactly when some `node_modules`
boundary of the path announces a name the Name Matcher accepts. -/
theorem matchesPartsLoop_eq_any (q : String) (parts : List String) :
    matchesPartsLoop q parts
      = (nodeModulesSegmentNames parts).any (fun n => MatchesPackageName n q) := by
  induction parts using matchesPartsLoop.induct q with
  | case1 next second rest ih =>
      cases hs : goStartsWith next "@" <;>
        simp [matchesPartsLoop, nodeModulesSegmentNames, ih, hs]
  | case2 next => simp [matchesPartsLoop, nodeModulesSegmentNames]
  | case3 part rest hc1 hc2 ihr =>
      simp [matchesPartsLoop, nodeModulesSegmentNames, hc1, hc2, ihr]
  | case4 => simp [matchesPartsLoop, nodeModulesSegmentNames]

/-- C1 (amended): for schema ≥ 2 with distinct path keys, an entry yields a
non-reference instance exactly when SOME `node_modules` boundary of its
path (not only the terminal one) announces a name the Name Matcher accepts
and the version condition holds. -/
theorem claimC1 (lock : PackageLock) (q v path : String) (pkg : Package)
    (h2 : lock.lockfileVersion ≥ 2) (hnd : (lock.packages.map Prod.fst).Nodup)
    (hmem : (path, pkg) ∈ lock.packages) :
    (∃ inst ∈ findPackageInstancesInLock lock q v,
        inst.isReference = false ∧ inst.path = path)
      ↔ ((nodeModulesSegmentNames (goSplit path '/')).any
            (fun n => MatchesPackageName n q) = true
          ∧ (v = "" ∨ pkg.version = v)) := by
  rw [find_split lock q v h2]
  constructor
  · rintro ⟨inst, hin, href, hpath⟩
    rcases List.mem_append.mp hin with h1 | h1
    · unfold installPassInstances at h1
      rcases List.mem_flatMap.mp h1 with ⟨pr, hpr, hx⟩
      cases hcond : (matchesPackageInPath pr.1 q && (v == "" || pr.2.version == v))
      · rw [hcond] at hx
        simp at hx
      · rw [hcond] at hx
        simp only [if_true] at hx
        rcases List.mem_singleton.mp hx with rfl
        have hpath' : pr.1 = path := hpath
        rw [Bool.and_eq_true] at hcond
        obtain ⟨hm, hver⟩ := hcond
        have hpr' : (path, pr.2) ∈ lock.packages := by rw [← hpath']; exact hpr
        have hpkg : pr.2 = pkg := keyUnique lock.packages hnd hpr' hmem
        refine ⟨?_, ?_⟩
        · rw [← matchesPartsLoop_eq_any]
          have hm' := hm
          rw [hpath'] at hm'
          unfold matchesPackageInPath at hm'
          exact hm' 
        · rw [Bool.or_eq_true] at hver
          rcases hver with he | he
          · exact Or.inl (by simpa using he)
          · exact Or.inr (by rw [← hpkg]; simpa using he)
    · rw [refPass_isRef _ _ _ inst h1] at href
      exact absurd href (by simp)
  · rintro ⟨hany, hver⟩
    have hm : matchesPackageInPath path q = true := by
      rw [matchesPackageInPath, matchesPartsLoop_eq_any]
      exact hany
    have hv : (v == "" || pkg.version == v) = true := by
      rcases hver with he | he
      · subst he
        simp
      · rw [he]
        simp
    refine ⟨{ version := pkg.version, path := path, lineNumber := 0,
              isReference := false, isDev := pkg.dev,
              isNested := goContains path "/node_modules/",
              depth := (goCountSub path "/node_modules/" : Int) },
            List.mem_append_left _ ?_, rfl, rfl⟩
    unfold installPassInstances
    refine List.mem_flatMap.mpr ⟨(path, pkg), hmem, ?_⟩
    rw [show (matchesPackageInPath (path, pkg).1 q
          && (v == "" || (path, pkg).2.version == v)) = true by rw [hm, hv]; rfl]
    simp

/-- C1 counterexample: the entry at
`node_modules/react/node_modules/left-pad` has terminal name `left-pad`,
which does not match the query `react`; yet the install pass emits an
instance for it, because the intermediate `react` segment matches. -/
theorem claimC1_counterexample :
    terminalPackageName (goSplit "node_modules/react/node_modules/left-pad" '/')
        = some "left-pad"
      ∧ MatchesPackageName "left-pad" "react" = false
      ∧ findPackageInstancesInLock lockInterSeg "react" ""
        = [{ version := "1.0.0", path := "node_modules/react/node_modules/left-pad",
             isDev := false, isNested := true, depth := 1 }] :=
  ⟨by decide, by decide, by decide⟩

/-- Number of segments a Go split produces. -/
theorem goSplit_length (s : String) (sep : Char) :
    (goSplit s sep).length = s.data.count sep + 1 := by
  unfold goSplit
  rw [List.length_map, splitOnChar_length]

/-- C6 (amended): parsing fails exactly when the token contains no `@` at
all; a scoped name with a version splits after the scope, extra `@`s stay
in the version verbatim, a bare name is an error, and a scoped name alone
(no second `@`) parses to an empty name with the remainder as version. -/
theorem claimC6 :
    (∀ input : String,
        parsePackageQuery input = Except.error "invalid format, expected package@version"
          ↔ input.data.count '@' = 0)
      ∧ parsePackageQuery "@types/node@18.0.0"
          = Except.ok { name := "@types/node", version := "18.0.0" }
      ∧ parsePackageQuery "package@1.0.0@beta"
          = Except.ok { name := "package", version := "1.0.0@beta" }
      ∧ parsePackageQuery "react"
          = Except.error "invalid format, expected package@version"
      ∧ parsePackageQuery "@types/node"
          = Except.ok { name := "", version := "types/node" } := by
  refine ⟨?_, rfl, rfl, rfl, rfl⟩
  intro input
  have hlen := goSplit_length input '@'
  unfold parsePackageQuery
  rcases hL : goSplit input '@' with _ | ⟨p0, _ | ⟨p1, _ | ⟨p2, rest⟩⟩⟩
  · rw [hL] at hlen
    simp at hlen
  · rw [hL] at hlen
    simp only [List.length_cons, List.length_nil] at hlen
    simp
    omega
  · rw [hL] at hlen
    simp only [List.length_cons, List.length_nil] at hlen
    simp
    omega
  · rw [hL] at hlen
    simp only [List.length_cons] at hlen
    show (if goStartsWith input "@" = true then
            Except.ok ({ name := "@" ++ p1, version := goJoin (p2 :: rest) "@" } : PackageQuery)
          else Except.ok ({ name := p0, version := goJoin (p1 :: p2 :: rest) "@" } : PackageQuery))
          = Except.error "invalid format, expected package@version"
        ↔ List.count '@' input.data = 0
    split <;> exact iff_of_false (fun h => Except.noConfusion h) (by omega)

/-- C8: the legacy descent builds each node's path from its parent's path,
matches scenario 4 exactly, and does not prune a matched node's subtree
(a matching parent and its matching nested child both yield instances). -/
theorem claimC8 :
    findPackageInstancesInLock lockLegacy "ms" "2.0.0"
        = [{ version := "2.0.0", path := "node_modules/debug/node_modules/ms",
             isDev := false, isNested := true, depth := 1 }]
      ∧ findPackageInstancesInLock lockLegacyNoPrune "ms" ""
        = [{ version := "1.0.0", path := "node_modules/ms",
             isDev := false, isNested := false, depth := 0 },
           { version := "2.0.0", path := "node_modules/ms/node_modules/ms",
             isDev := false, isNested := true, depth := 1 }] := by
  constructor
  · simp only [findPackageInstancesInLock, lockLegacy]
    norm_num
    simp [searchDependenciesRecursive]
    decide
  · simp only [findPackageInstancesInLock, lockLegacyNoPrune]
    norm_num
    simp [searchDependenciesRecursive]
    decide

/-- C6 counterexample: a scoped name with no version separator is not a
parse error; it parses to an empty name and the remainder as version. -/
theorem claimC6_counterexample :
    parsePackageQuery "@types/node" = Except.ok { name := "", version := "types/node" } := rfl

/-- Instantiation of the C1 equivalence at a concrete lockfile. -/
theorem claimC1_witness :
    ∃ inst ∈ findPackageInstancesInLock lockSmall "react" "18.2.0",
      inst.isReference = false ∧ inst.path = "node_modules/react" :=
  (claimC1 lockSmall "react" "18.2.0" "node_modules/react" { version := "18.2.0" }
    (by decide) (by decide) (by decide)).mpr ⟨by decide, Or.inr rfl⟩

/-- Instantiation of the C2 invariants at a concrete scan result. -/
theorem claimC2_witness :
    (sampleResult.found = true ↔ 0 < sampleResult.totalInstances)
      ∧ sampleResult.totalInstances = sampleResult.instances.length :=
  claimC2 lockSmall [{ name := "react", version := "18.2.0" }] defaultFilterConfig
    sampleResult (by decide)

/-- Instantiation of the C3 install-pass equation at a concrete lockfile. -/
theorem claimC3_witness :
    (findPackageInstancesInLock lockSmall "react" "18.2.0").filter (fun i => !i.isReference)
      = ((findPackageInstancesInLock lockSmall "react" "").filter
            (fun i => !i.isReference)).filter
          (fun i => ("18.2.0" : String) == "" || i.version == "18.2.0") :=
  (claimC3 lockSmall "react" "18.2.0" (by decide)).1

/-- Instantiation of the C4 equivalence at concrete names. -/
theorem claimC4_witness :
    (MatchesPackageName "@types/node" "node" = true ↔ nameMatcherSpec "@types/node" "node")
      ∧ MatchesPackageName "left-pad" "left-pad" = true :=
  ⟨claimC4.1 "@types/node" "node", claimC4.2.1 "left-pad"⟩

/-- Instantiation of the C5 depth law at a concrete instance. -/
theorem claimC5_witness :
    sampleInstall.depth = (goCountSub sampleInstall.path "/node_modules/" : Int) :=
  claimC5.1 lockDepth "b" "" sampleInstall (by decide) rfl

/-- Instantiation of the C6 error characterisation at a concrete token. -/
theorem claimC6_witness :
    (parsePackageQuery "lodash" = Except.error "invalid format, expected package@version"
      ↔ ("lodash" : String).data.count '@' = 0) :=
  claimC6.1 "lodash"

/-- Instantiation of the C7 default-config law at a concrete list. -/
theorem claimC7_witness :
    applyFilters [sampleInstall] defaultFilterConfig = [sampleInstall] :=
  claimC7.2.2.1 [sampleInstall] (by decide)

/-- Instantiation of the C9 reference-count law at a concrete lockfile. -/
theorem claimC9_witness :
    ((findPackageInstancesInLock lockDepth "" "").filter (fun i => i.isReference)).length
      = (lockDepth.packages.map (fun pr => pr.2.dependencies.length)).sum :=
  claimC9.2.2.1 lockDepth (by decide)

/-- Instantiation of the C10 reference-kind law at a concrete instance. -/
theorem claimC10_witness :
    sampleRef.referenceType = if sampleRef.isReference then "dependencies" else "" :=
  claimC10.1 lockDepth "b" "" sampleRef (by decide)

end Scnpm
